import Mathlib

/-!
Verification of the Atrium Grounds observatory job-processing core.

This file gives a shallow embedding, in Lean 4, of the components of
`services/observatory/app` that the specification's testable properties
talk about:

* `app/core/queue.py` — `JobPriority`, `BatchJob`, `JobQueue`
  (enqueue / dequeue / cancel over two Redis lists plus a key-value
  payload store);
* `app/middleware/ratelimit.py` — `RateLimiter.check_rate_limit` with its
  in-memory sliding windows;
* `app/core/notifications.py` — `WebhookNotifier._send_webhook` retry loop
  and the payload builders;
* `app/core/jobs.py` — the `JobManager` job lifecycle (`_run_job` handler
  blocks, `cancel_job`, timeout dispatch);
* `app/core/worker.py` — `BatchWorker.process_job` per-item loop.

Redis lists are modelled as Lean lists of job-id strings (`rpush` appends
at the tail, `lpop` pops the head, `lrem key 1 id` erases the first
occurrence); the Redis key-value store is an association list with
`SET`-overwrite semantics.  JSON serialization (pydantic
`model_dump_json` / `model_validate_json`) is modelled at the level of a
JSON value tree: printing a tree to a byte string and re-parsing it is
the identity seam we do not re-verify.  Python floats are modelled as
rationals, Python `%` on non-negative floats as `x - y * ⌊x / y⌋`.
-/

/-- JSON value trees: the image of Python dict/list/str/number/bool/None
payloads, used for `options: dict[str, Any]`, job results, and stored
queue payloads. -/
inductive Json : Type where
  | null : Json
  | bool (b : Bool) : Json
  | num (q : ℚ) : Json
  | str (s : String) : Json
  | arr (elems : List Json) : Json
  | obj (fields : List (String × Json)) : Json

/-- `JobPriority` from `app/core/queue.py`: LOW = 0, NORMAL = 1, HIGH = 2. -/
inductive JobPriority : Type where
  | low : JobPriority
  | normal : JobPriority
  | high : JobPriority
deriving DecidableEq

/-- The integer value of a priority (the `int, Enum` values in the source;
`use_enum_values` makes pydantic store and dump the int). -/
def JobPriority.toNum : JobPriority → ℚ
  | .low => 0
  | .normal => 1
  | .high => 2

/-- Pydantic validation of an integer back into `JobPriority`. -/
def JobPriority.ofNum : ℚ → Option JobPriority
  | 0 => some .low
  | 1 => some .normal
  | 2 => some .high
  | _ => none

/-- `BatchJob` from `app/core/queue.py`.  `options` is a JSON object
(Python `dict[str, Any]`); `created_at` is kept as its ISO-8601 string
form, which is what the JSON round trip transports. -/
structure BatchJob : Type where
  batch_id : String
  conversation_ids : List String
  options : List (String × Json)
  priority : JobPriority
  created_at : String

/-- `model_dump_json` for `BatchJob`, at the JSON-tree level: the field
layout pydantic produces (priority dumped as its int value). -/
def BatchJob.model_dump_json (j : BatchJob) : Json :=
  .obj [("batch_id", .str j.batch_id),
        ("conversation_ids", .arr (j.conversation_ids.map .str)),
        ("options", .obj j.options),
        ("priority", .num j.priority.toNum),
        ("created_at", .str j.created_at)]

/-- Read a JSON array of strings back into a string list (pydantic
validation of `list[str]`). -/
def Json.asStrList : List Json → Option (List String)
  | [] => some []
  | .str s :: rest => (Json.asStrList rest).map (fun tl => s :: tl)
  | _ :: _ => none

/-- Association-list lookup (used both for JSON-object field access and
for the Redis key-value store). -/
def getKey {α : Type} (l : List (String × α)) (k : String) : Option α :=
  (l.find? (fun p => p.1 = k)).map (fun p => p.2)

/-- `model_validate_json` for `BatchJob`: field-by-field validation of a
JSON tree. -/
def BatchJob.model_validate_json : Json → Option BatchJob
  | .obj fields =>
    match getKey fields "batch_id", getKey fields "conversation_ids",
          getKey fields "options", getKey fields "priority",
          getKey fields "created_at" with
    | some (.str bid), some (.arr cids), some (.obj opts), some (.num p),
      some (.str cat) =>
      match Json.asStrList cids, JobPriority.ofNum p with
      | some ids, some prio =>
        some ⟨bid, ids, opts, prio, cat⟩
      | _, _ => none
    | _, _, _, _, _ => none
  | _ => none

theorem asStrList_map_str (l : List String) :
    Json.asStrList (l.map .str) = some l := by
  induction l with
  | nil => rfl
  | cons h t ih => simp [Json.asStrList, ih]

theorem ofNum_toNum (p : JobPriority) : JobPriority.ofNum p.toNum = some p := by
  cases p <;> rfl

/-- Serialization round trip: validating a dumped `BatchJob` recovers it
exactly. -/
theorem validate_dump (j : BatchJob) :
    BatchJob.model_validate_json j.model_dump_json = some j := by
  simp [BatchJob.model_dump_json, BatchJob.model_validate_json, getKey,
    List.find?, asStrList_map_str, ofNum_toNum]

/-- Redis `SET`: overwrite the value under `k` if present, else append the
new key at the end. -/
def setKey {α : Type} : List (String × α) → String → α → List (String × α)
  | [], k, v => [(k, v)]
  | (k', v') :: t, k, v =>
    if k' = k then (k, v) :: t else (k', v') :: setKey t k v

/-- Redis `DEL`: remove the entry under `k` (association lists here keep
their keys nodup, so removing the first occurrence removes the key). -/
def delKey {α : Type} : List (String × α) → String → List (String × α)
  | [], _ => []
  | (k', v') :: t, k => if k' = k then t else (k', v') :: delKey t k

/-- The `JobQueue` Redis state from `app/core/queue.py`: the two id lists
(`observatory:priority_queue`, `observatory:job_queue`) and the
`observatory:job:<id>` payload store.  List head = Redis list head
(`lpop` side); `rpush` appends at the tail. -/
structure QueueState : Type where
  priority_queue : List String
  normal_queue : List String
  store : List (String × Json)

/-- The empty queue state (fresh Redis). -/
def qInit : QueueState := ⟨[], [], []⟩

/-- `JobQueue.enqueue`: store the serialized job under the given freshly
generated id, then `rpush` the id onto the priority list (HIGH) or the
normal list (LOW/NORMAL).  The id (`uuid4` in the source) is passed in
explicitly; freshness is a hypothesis where theorems need it. -/
def enqueue (job_id : String) (job : BatchJob) (s : QueueState) : QueueState :=
  let store' := setKey s.store job_id job.model_dump_json
  if job.priority = .high then
    { s with store := store', priority_queue := s.priority_queue ++ [job_id] }
  else
    { s with store := store', normal_queue := s.normal_queue ++ [job_id] }

/-- Payload retrieval step of `JobQueue.dequeue` after an id was popped:
missing payload returns `none` for that attempt (the job was cancelled
between pop and get); otherwise the payload is deleted and validated. -/
def takeJob (job_id : String) (s : QueueState) :
    Option (String × BatchJob) × QueueState :=
  match getKey s.store job_id with
  | none => (none, s)
  | some payload =>
    ((BatchJob.model_validate_json payload).map (fun j => (job_id, j)),
     { s with store := delKey s.store job_id })

/-- `JobQueue.dequeue` (non-blocking path; the `timeout > 0` branch only
blocks on an empty normal list and pops identically), instrumented to
also report which id was popped.  Priority list is popped first; the
normal list only when the priority list is empty. -/
def dequeueWithId (s : QueueState) : Option (String × BatchJob) × QueueState :=
  match s.priority_queue with
  | job_id :: rest => takeJob job_id { s with priority_queue := rest }
  | [] =>
    match s.normal_queue with
    | job_id :: rest => takeJob job_id { s with normal_queue := rest }
    | [] => (none, s)

/-- `JobQueue.dequeue` as the caller sees it: just the `BatchJob`. -/
def dequeue (s : QueueState) : Option BatchJob × QueueState :=
  ((dequeueWithId s).1.map (fun p => p.2), (dequeueWithId s).2)

/-- `JobQueue.cancel`: `lrem 1 id` on both lists (erase the first
occurrence); if either removed something, delete the payload and report
true, else false. -/
def cancel (job_id : String) (s : QueueState) : Bool × QueueState :=
  let nq := s.normal_queue.erase job_id
  let pq := s.priority_queue.erase job_id
  if job_id ∈ s.normal_queue ∨ job_id ∈ s.priority_queue then
    (true, ⟨pq, nq, delKey s.store job_id⟩)
  else
    (false, ⟨pq, nq, s.store⟩)

/-- Enqueue a batch of (id, job) pairs in order. -/
def enqueueAll (jobs : List (String × BatchJob)) (s : QueueState) : QueueState :=
  jobs.foldl (fun t p => enqueue p.1 p.2 t) s

/-- Dequeue repeatedly, up to `n` times, collecting the returned jobs;
stops early when the queue reports empty. -/
def drain : ℕ → QueueState → List BatchJob
  | 0, _ => []
  | n + 1, s =>
    match dequeue s with
    | (none, _) => []
    | (some j, s') => j :: drain n s'

/-- Whether an (id, job) pair goes to the priority list on enqueue. -/
def isHigh (p : String × BatchJob) : Bool :=
  decide (p.2.priority = JobPriority.high)

theorem enqueue_store (job_id : String) (j : BatchJob) (s : QueueState) :
    (enqueue job_id j s).store = setKey s.store job_id j.model_dump_json := by
  unfold enqueue
  split <;> rfl

theorem enqueue_pq (job_id : String) (j : BatchJob) (s : QueueState) :
    (enqueue job_id j s).priority_queue =
      if isHigh (job_id, j) then s.priority_queue ++ [job_id]
      else s.priority_queue := by
  unfold enqueue isHigh
  split <;> simp_all

theorem enqueue_nq (job_id : String) (j : BatchJob) (s : QueueState) :
    (enqueue job_id j s).normal_queue =
      if isHigh (job_id, j) then s.normal_queue
      else s.normal_queue ++ [job_id] := by
  unfold enqueue isHigh
  split <;> simp_all

theorem setKey_of_not_mem {α : Type} (l : List (String × α)) (k : String)
    (v : α) (h : k ∉ l.map Prod.fst) : setKey l k v = l ++ [(k, v)] := by
  induction l with
  | nil => rfl
  | cons p t ih =>
    simp only [List.map_cons, List.mem_cons] at h
    push_neg at h
    simp [setKey, h.1.symm, ih h.2]

theorem getKey_cons_eq {α : Type} (a : String) (v : α) (t : List (String × α)) :
    getKey ((a, v) :: t) a = some v := by
  simp [getKey, List.find?_cons_of_pos]

theorem getKey_cons_ne {α : Type} (a : String) (v : α) (t : List (String × α))
    (k' : String) (h : a ≠ k') : getKey ((a, v) :: t) k' = getKey t k' := by
  unfold getKey
  rw [List.find?_cons_of_neg]
  simp [h]

theorem getKey_delKey_ne {α : Type} (l : List (String × α)) (k k' : String)
    (h : k' ≠ k) : getKey (delKey l k) k' = getKey l k' := by
  induction l with
  | nil => rfl
  | cons p t ih =>
    obtain ⟨a, v⟩ := p
    by_cases hk : a = k
    · subst hk
      rw [getKey_cons_ne a v t k' (fun e => h e.symm)]
      simp [delKey]
    · by_cases ha : a = k'
      · subst ha
        simp [delKey, hk, getKey_cons_eq]
      · rw [getKey_cons_ne a v t k' ha]
        simp only [delKey, if_neg hk]
        rw [getKey_cons_ne a v (delKey t k) k' ha]
        exact ih

theorem getKey_map_dump (jobs : List (String × BatchJob))
    (hnd : (jobs.map Prod.fst).Nodup) (p : String × BatchJob) (hp : p ∈ jobs) :
    getKey (jobs.map (fun q => (q.1, q.2.model_dump_json))) p.1 =
      some p.2.model_dump_json := by
  induction jobs with
  | nil => cases hp
  | cons q t ih =>
    simp only [List.map_cons, List.nodup_cons] at hnd
    rcases List.mem_cons.mp hp with h | h
    · subst h
      exact getKey_cons_eq _ _ _
    · have hne : q.1 ≠ p.1 := by
        intro e
        exact hnd.1 (e ▸ List.mem_map_of_mem Prod.fst h)
      rw [List.map_cons, getKey_cons_ne _ _ _ _ hne]
      exact ih hnd.2 h

theorem enqueueAll_pq (jobs : List (String × BatchJob)) (s : QueueState) :
    (enqueueAll jobs s).priority_queue =
      s.priority_queue ++ (jobs.filter isHigh).map Prod.fst := by
  induction jobs generalizing s with
  | nil => simp [enqueueAll]
  | cons p t ih =>
    have step : enqueueAll (p :: t) s = enqueueAll t (enqueue p.1 p.2 s) := rfl
    rw [step, ih, enqueue_pq]
    by_cases h : isHigh (p.1, p.2)
    · simp [h, List.filter_cons, isHigh] at h ⊢
      simp [h]
    · simp [h, List.filter_cons, isHigh] at h ⊢
      simp [h]

theorem enqueueAll_nq (jobs : List (String × BatchJob)) (s : QueueState) :
    (enqueueAll jobs s).normal_queue =
      s.normal_queue ++ (jobs.filter (fun p => ! isHigh p)).map Prod.fst := by
  induction jobs generalizing s with
  | nil => simp [enqueueAll]
  | cons p t ih =>
    have step : enqueueAll (p :: t) s = enqueueAll t (enqueue p.1 p.2 s) := rfl
    rw [step, ih, enqueue_nq]
    by_cases h : isHigh (p.1, p.2)
    · simp [h, List.filter_cons, isHigh] at h ⊢
      simp [h]
    · simp [h, List.filter_cons, isHigh] at h ⊢
      simp [h]

theorem enqueueAll_store (jobs : List (String × BatchJob)) (s : QueueState)
    (hfresh : ∀ p ∈ jobs, p.1 ∉ s.store.map Prod.fst)
    (hnd : (jobs.map Prod.fst).Nodup) :
    (enqueueAll jobs s).store =
      s.store ++ jobs.map (fun p => (p.1, p.2.model_dump_json)) := by
  induction jobs generalizing s with
  | nil => simp [enqueueAll]
  | cons p t ih =>
    have step : enqueueAll (p :: t) s = enqueueAll t (enqueue p.1 p.2 s) := rfl
    simp only [List.map_cons, List.nodup_cons] at hnd
    have hset : (enqueue p.1 p.2 s).store = s.store ++ [(p.1, p.2.model_dump_json)] := by
      rw [enqueue_store, setKey_of_not_mem _ _ _ (hfresh p (by simp))]
    rw [step, ih (enqueue p.1 p.2 s) ?_ hnd.2, hset]
    · simp
    · intro q hq
      rw [hset]
      simp only [List.map_append, List.mem_append]
      push_neg
      refine ⟨hfresh q (by simp [hq]), ?_⟩
      simp only [List.map_cons, List.map_nil, List.mem_singleton]
      intro e
      exact hnd.1 (e ▸ List.mem_map_of_mem Prod.fst hq)

theorem drain_normal (L : List (String × BatchJob)) :
    ∀ store : List (String × Json), ((L.map Prod.fst)).Nodup →
    (∀ p ∈ L, getKey store p.1 = some p.2.model_dump_json) →
    drain L.length ⟨[], L.map Prod.fst, store⟩ = L.map Prod.snd := by
  induction L with
  | nil => intro store _ _; rfl
  | cons p t ih =>
    intro store hnd hlook
    obtain ⟨a, j⟩ := p
    simp only [List.map_cons, List.nodup_cons] at hnd
    have hget : getKey store a = some j.model_dump_json := hlook (a, j) (by simp)
    have hstep : dequeue ⟨[], a :: t.map Prod.fst, store⟩ =
        (some j, ⟨[], t.map Prod.fst, delKey store a⟩) := by
      simp [dequeue, dequeueWithId, takeJob, hget, validate_dump]
    have hlook' : ∀ q ∈ t, getKey (delKey store a) q.1 = some q.2.model_dump_json := by
      intro q hq
      have hne : q.1 ≠ a := by
        intro e
        exact hnd.1 (e ▸ List.mem_map_of_mem Prod.fst hq)
      rw [getKey_delKey_ne store a q.1 hne]
      exact hlook q (by simp [hq])
    simp only [List.length_cons, List.map_cons, drain, hstep]
    rw [ih (delKey store a) hnd.2 hlook']

theorem drain_both (L1 : List (String × BatchJob)) :
    ∀ (L2 : List (String × BatchJob)) (store : List (String × Json)),
    (((L1 ++ L2).map Prod.fst)).Nodup →
    (∀ p ∈ L1 ++ L2, getKey store p.1 = some p.2.model_dump_json) →
    drain (L1.length + L2.length) ⟨L1.map Prod.fst, L2.map Prod.fst, store⟩ =
      (L1 ++ L2).map Prod.snd := by
  induction L1 with
  | nil =>
    intro L2 store hnd hlook
    simpa using drain_normal L2 store (by simpa using hnd) (by simpa using hlook)
  | cons p t ih =>
    intro L2 store hnd hlook
    obtain ⟨a, j⟩ := p
    simp only [List.cons_append, List.map_cons, List.nodup_cons] at hnd
    have hget : getKey store a = some j.model_dump_json := hlook (a, j) (by simp)
    have hstep : dequeue ⟨a :: t.map Prod.fst, L2.map Prod.fst, store⟩ =
        (some j, ⟨t.map Prod.fst, L2.map Prod.fst, delKey store a⟩) := by
      simp [dequeue, dequeueWithId, takeJob, hget, validate_dump]
    have hcount : ((a, j) :: t).length + L2.length = (t.length + L2.length) + 1 := by
      simp [List.length_cons]; omega
    have hlook' : ∀ q ∈ t ++ L2, getKey (delKey store a) q.1 = some q.2.model_dump_json := by
      intro q hq
      have hne : q.1 ≠ a := by
        intro e
        exact hnd.1 (e ▸ List.mem_map_of_mem Prod.fst hq)
      rw [getKey_delKey_ne store a q.1 hne]
      exact hlook q (by simp [List.mem_append.mp hq])
    rw [hcount]
    simp only [List.map_cons, drain, hstep]
    rw [ih L2 (delKey store a) hnd.2 hlook']
    simp

/-- C1.  Priority ordering of `JobQueue`: enqueue any mix of High and
Normal/Low jobs (under distinct generated ids) into a fresh queue, then
dequeue everything: the result is exactly the High-priority payloads in
enqueue (FIFO) order, followed by the Normal/Low payloads in enqueue
(FIFO) order.  In particular every High job currently in the queue comes
out before any Normal/Low job, and within each priority class order is
strict FIFO. -/
theorem priority_fifo_ordering (jobs : List (String × BatchJob))
    (hnd : (jobs.map Prod.fst).Nodup) :
    drain jobs.length (enqueueAll jobs qInit) =
      (jobs.filter isHigh).map Prod.snd ++
      (jobs.filter (fun p => ! isHigh p)).map Prod.snd := by
  have hperm : (jobs.filter isHigh ++ jobs.filter (fun p => ! isHigh p)).Perm jobs :=
    List.filter_append_perm isHigh jobs
  have hpermf : ((jobs.filter isHigh ++ jobs.filter (fun p => ! isHigh p)).map Prod.fst).Perm
      (jobs.map Prod.fst) := hperm.map Prod.fst
  have hnd2 := (hpermf.nodup_iff).mpr hnd
  have hstate : enqueueAll jobs qInit =
      QueueState.mk ((jobs.filter isHigh).map Prod.fst)
        ((jobs.filter (fun p => ! isHigh p)).map Prod.fst)
        (jobs.map fun p => (p.1, p.2.model_dump_json)) := by
    have h1 := enqueueAll_pq jobs qInit
    have h2 := enqueueAll_nq jobs qInit
    have h3 := enqueueAll_store jobs qInit (fun p _ => by simp [qInit]) hnd
    cases hq : enqueueAll jobs qInit
    rw [hq] at h1 h2 h3
    simp only [qInit] at h1 h2 h3
    simp_all
  have hlen : jobs.length =
      (jobs.filter isHigh).length + (jobs.filter (fun p => ! isHigh p)).length := by
    have := hperm.length_eq
    simpa using this.symm
  rw [hstate, hlen]
  rw [drain_both _ _ _ hnd2]
  · simp
  · intro p hp
    exact getKey_map_dump jobs hnd p (hperm.mem_iff.mp hp)

/-- Concrete Normal-priority job A for the spec's worked example. -/
def jobA : BatchJob := ⟨"A", [], [], .normal, "t0"⟩

/-- Concrete High-priority job B for the spec's worked example. -/
def jobB : BatchJob := ⟨"B", [], [], .high, "t1"⟩

/-- Concrete Normal-priority job C for the spec's worked example. -/
def jobC : BatchJob := ⟨"C", [], [], .normal, "t2"⟩

/-- The enqueue sequence Normal(A), High(B), Normal(C). -/
def jobsABC : List (String × BatchJob) :=
  [("id-a", jobA), ("id-b", jobB), ("id-c", jobC)]

/-- Witness for C1: enqueue Normal(A), High(B), Normal(C) and dequeue
everything; the order is B, A, C. -/
theorem priority_fifo_ordering_witness :
    (jobsABC.map Prod.fst).Nodup ∧
      drain jobsABC.length (enqueueAll jobsABC qInit) = [jobB, jobA, jobC] :=
  ⟨by decide, by rw [priority_fifo_ordering jobsABC (by decide)]; rfl⟩

/-- C9.  Round trip: a `BatchJob` enqueued then dequeued comes back with
identical `batch_id`, `conversation_ids`, `options` and `priority`
(indeed identical in all fields), through serialize / store / load /
deserialize. -/
theorem enqueue_dequeue_round_trip (id : String) (j : BatchJob) :
    ∃ j', (dequeue (enqueue id j qInit)).1 = some j' ∧
      j'.batch_id = j.batch_id ∧ j'.conversation_ids = j.conversation_ids ∧
      j'.options = j.options ∧ j'.priority = j.priority := by
  refine ⟨j, ?_, rfl, rfl, rfl, rfl⟩
  unfold enqueue qInit
  by_cases h : j.priority = .high <;>
    simp [h, dequeue, dequeueWithId, takeJob, setKey, getKey_cons_eq, validate_dump]

theorem delKey_sublist {α : Type} (l : List (String × α)) (k : String) :
    (delKey l k).Sublist l := by
  induction l with
  | nil => simp [delKey]
  | cons p t ih =>
    obtain ⟨a, v⟩ := p
    by_cases h : a = k
    · simp only [delKey, if_pos h]
      exact (List.Sublist.refl t).cons (a, v)
    · simp only [delKey, if_neg h]
      exact ih.cons₂ (a, v)

theorem mem_keys_setKey {α : Type} (l : List (String × α)) (k a : String) (v : α) :
    a ∈ (setKey l k v).map Prod.fst ↔ a ∈ l.map Prod.fst ∨ a = k := by
  induction l with
  | nil => simp [setKey]
  | cons p t ih =>
    obtain ⟨b, w⟩ := p
    by_cases h : b = k
    · subst h
      simp [setKey]
      tauto
    · simp [setKey, h, ih]
      tauto

theorem nodup_keys_setKey {α : Type} (l : List (String × α)) (k : String) (v : α)
    (h : (l.map Prod.fst).Nodup) : ((setKey l k v).map Prod.fst).Nodup := by
  induction l with
  | nil => simp [setKey]
  | cons p t ih =>
    obtain ⟨b, w⟩ := p
    simp only [List.map_cons, List.nodup_cons] at h
    by_cases hb : b = k
    · subst hb
      have hs : setKey ((b, w) :: t) b v = (b, v) :: t := by simp [setKey]
      rw [hs]
      simp only [List.map_cons, List.nodup_cons]
      exact h
    · simp only [setKey, if_neg hb, List.map_cons, List.nodup_cons]
      refine ⟨?_, ih h.2⟩
      rw [mem_keys_setKey]
      rintro (hm | he)
      · exact h.1 hm
      · exact hb he

theorem not_mem_keys_delKey {α : Type} (l : List (String × α)) (k : String)
    (h : (l.map Prod.fst).Nodup) : k ∉ (delKey l k).map Prod.fst := by
  induction l with
  | nil => simp [delKey]
  | cons p t ih =>
    obtain ⟨b, w⟩ := p
    simp only [List.map_cons, List.nodup_cons] at h
    by_cases hb : b = k
    · subst hb
      simp only [delKey, if_pos rfl]
      exact h.1
    · simp only [delKey, if_neg hb, List.map_cons, List.mem_cons]
      push_neg
      exact ⟨fun e => hb e.symm, ih h.2⟩

/-- Well-formedness that the real `JobQueue` maintains because ids are
fresh `uuid4` strings: no id appears twice across the two lists, and the
payload store has nodup keys. -/
def wfQueue (s : QueueState) : Prop :=
  (s.priority_queue ++ s.normal_queue).Nodup ∧ (s.store.map Prod.fst).Nodup

/-- The id is gone from both lists and from the payload store. -/
def idAbsent (job_id : String) (s : QueueState) : Prop :=
  job_id ∉ s.priority_queue ∧ job_id ∉ s.normal_queue ∧
    job_id ∉ s.store.map Prod.fst

/-- Queue operations a client can run after a dequeue. -/
inductive QOp : Type where
  | enq (job_id : String) (j : BatchJob) : QOp
  | deq : QOp
  | can (job_id : String) : QOp

/-- Apply one queue operation (only the state effect). -/
def applyOp (s : QueueState) : QOp → QueueState
  | .enq job_id j => enqueue job_id j s
  | .deq => (dequeue s).2
  | .can job_id => (cancel job_id s).2

/-- Run a sequence of queue operations. -/
def runOps (s : QueueState) (ops : List QOp) : QueueState :=
  ops.foldl applyOp s

/-- Legality of an operation sequence: each enqueue uses a freshly
generated id (not currently queued) — what `uuid4` guarantees. -/
inductive Legal : QueueState → List QOp → Prop where
  | nil (s : QueueState) : Legal s []
  | enq (s : QueueState) (job_id : String) (j : BatchJob) (ops : List QOp) :
      job_id ∉ s.priority_queue ++ s.normal_queue →
      Legal (enqueue job_id j s) ops → Legal s (.enq job_id j :: ops)
  | deq (s : QueueState) (ops : List QOp) :
      Legal ((dequeue s).2) ops → Legal s (.deq :: ops)
  | can (s : QueueState) (job_id : String) (ops : List QOp) :
      Legal ((cancel job_id s).2) ops → Legal s (.can job_id :: ops)

theorem dequeue_shrink (s : QueueState) :
    (dequeue s).2.priority_queue.Sublist s.priority_queue ∧
    (dequeue s).2.normal_queue.Sublist s.normal_queue ∧
    ((dequeue s).2.store.map Prod.fst).Sublist (s.store.map Prod.fst) := by
  obtain ⟨pq, nq, store⟩ := s
  cases pq with
  | cons i rest =>
    simp only [dequeue, dequeueWithId, takeJob]
    cases hget : getKey store i with
    | none =>
      simp only [hget]
      exact ⟨(List.Sublist.refl rest).cons i, List.Sublist.refl nq,
        List.Sublist.refl _⟩
    | some payload =>
      simp only [hget]
      exact ⟨(List.Sublist.refl rest).cons i, List.Sublist.refl nq,
        (delKey_sublist store i).map Prod.fst⟩
  | nil =>
    cases nq with
    | cons i rest =>
      simp only [dequeue, dequeueWithId, takeJob]
      cases hget : getKey store i with
      | none =>
        simp only [hget]
        exact ⟨List.Sublist.refl [], (List.Sublist.refl rest).cons i,
          List.Sublist.refl _⟩
      | some payload =>
        simp only [hget]
        exact ⟨List.Sublist.refl [], (List.Sublist.refl rest).cons i,
          (delKey_sublist store i).map Prod.fst⟩
    | nil =>
      exact ⟨List.Sublist.refl _, List.Sublist.refl _, List.Sublist.refl _⟩

theorem cancel_shrink (i : String) (s : QueueState) :
    (cancel i s).2.priority_queue.Sublist s.priority_queue ∧
    (cancel i s).2.normal_queue.Sublist s.normal_queue ∧
    ((cancel i s).2.store.map Prod.fst).Sublist (s.store.map Prod.fst) := by
  unfold cancel
  split
  · exact ⟨List.erase_sublist .., List.erase_sublist ..,
      (delKey_sublist s.store i).map Prod.fst⟩
  · exact ⟨List.erase_sublist .., List.erase_sublist .., List.Sublist.refl _⟩

theorem absent_mono {i : String} {s t : QueueState}
    (hp : t.priority_queue.Sublist s.priority_queue)
    (hn : t.normal_queue.Sublist s.normal_queue)
    (hs : (t.store.map Prod.fst).Sublist (s.store.map Prod.fst))
    (h : idAbsent i s) : idAbsent i t :=
  ⟨fun m => h.1 (hp.subset m), fun m => h.2.1 (hn.subset m),
   fun m => h.2.2 (hs.subset m)⟩

theorem absent_enqueue (i i' : String) (j : BatchJob) (s : QueueState)
    (h : idAbsent i s) (hne : i ≠ i') : idAbsent i (enqueue i' j s) := by
  obtain ⟨h1, h2, h3⟩ := h
  unfold enqueue
  split
  · exact ⟨by simp [List.mem_append, h1, hne], h2,
      by rw [mem_keys_setKey]; tauto⟩
  · exact ⟨h1, by simp [List.mem_append, h2, hne],
      by rw [mem_keys_setKey]; tauto⟩

theorem wf_enqueue (i : String) (j : BatchJob) (s : QueueState)
    (hwf : wfQueue s) (hfresh : i ∉ s.priority_queue ++ s.normal_queue) :
    wfQueue (enqueue i j s) := by
  obtain ⟨hl, hs⟩ := hwf
  unfold enqueue
  split
  · refine ⟨?_, nodup_keys_setKey _ _ _ hs⟩
    have he : (s.priority_queue ++ [i]) ++ s.normal_queue =
        s.priority_queue ++ i :: s.normal_queue := by simp
    rw [he, List.nodup_middle]
    exact List.nodup_cons.mpr ⟨hfresh, hl⟩
  · refine ⟨?_, nodup_keys_setKey _ _ _ hs⟩
    have he : s.priority_queue ++ (s.normal_queue ++ [i]) =
        (s.priority_queue ++ s.normal_queue) ++ i :: [] := by simp
    rw [he, List.nodup_middle]
    refine List.nodup_cons.mpr ⟨?_, by simpa using hl⟩
    simpa using hfresh

theorem wf_of_shrink {s t : QueueState}
    (hp : t.priority_queue.Sublist s.priority_queue)
    (hn : t.normal_queue.Sublist s.normal_queue)
    (hs : (t.store.map Prod.fst).Sublist (s.store.map Prod.fst))
    (hwf : wfQueue s) : wfQueue t :=
  ⟨hwf.1.sublist (hp.append hn), hwf.2.sublist hs⟩

theorem absent_wf_runOps (i : String) :
    ∀ (ops : List QOp) (s : QueueState), wfQueue s → idAbsent i s →
    Legal s ops → (∀ j', QOp.enq i j' ∉ ops) →
    wfQueue (runOps s ops) ∧ idAbsent i (runOps s ops) := by
  intro ops
  induction ops with
  | nil => exact fun s hwf habs _ _ => ⟨hwf, habs⟩
  | cons op rest ih =>
    intro s hwf habs hlegal hnoenq
    cases hlegal with
    | enq _ job_id j _ hfresh hlegal' =>
      have hne : i ≠ job_id := by
        intro e
        subst e
        exact hnoenq j (by simp)
      exact ih (enqueue job_id j s) (wf_enqueue job_id j s hwf hfresh)
        (absent_enqueue i job_id j s habs hne) hlegal'
        (fun j' hm => hnoenq j' (by simp [hm]))
    | deq _ _ hlegal' =>
      obtain ⟨hp, hn, hs⟩ := dequeue_shrink s
      exact ih ((dequeue s).2) (wf_of_shrink hp hn hs hwf)
        (absent_mono hp hn hs habs) hlegal'
        (fun j' hm => hnoenq j' (by simp [hm]))
    | can _ job_id _ hlegal' =>
      obtain ⟨hp, hn, hs⟩ := cancel_shrink job_id s
      exact ih ((cancel job_id s).2) (wf_of_shrink hp hn hs hwf)
        (absent_mono hp hn hs habs) hlegal'
        (fun j' hm => hnoenq j' (by simp [hm]))

theorem dequeueWithId_some_mem (s : QueueState) (i : String) (j : BatchJob)
    (t : QueueState) (h : dequeueWithId s = (some (i, j), t)) :
    i ∈ s.priority_queue ∨ i ∈ s.normal_queue := by
  obtain ⟨pq, nq, store⟩ := s
  cases pq with
  | cons i0 rest =>
    left
    simp only [dequeueWithId, takeJob] at h
    cases hget : getKey store i0 with
    | none => simp only [hget] at h; simp at h
    | some payload =>
      simp only [hget] at h
      cases hval : BatchJob.model_validate_json payload with
      | none => rw [hval] at h; simp at h
      | some j0 =>
        rw [hval] at h
        simp only [Option.map_some', Prod.mk.injEq, Option.some.injEq] at h
        simp [← h.1.1]
  | nil =>
    cases nq with
    | cons i0 rest =>
      right
      simp only [dequeueWithId, takeJob] at h
      cases hget : getKey store i0 with
      | none => simp only [hget] at h; simp at h
      | some payload =>
        simp only [hget] at h
        cases hval : BatchJob.model_validate_json payload with
        | none => rw [hval] at h; simp at h
        | some j0 =>
          rw [hval] at h
          simp only [Option.map_some', Prod.mk.injEq, Option.some.injEq] at h
          simp [← h.1.1]
    | nil => simp [dequeueWithId] at h

theorem dequeue_after (s : QueueState) (i : String) (j : BatchJob)
    (t : QueueState) (hwf : wfQueue s)
    (h : dequeueWithId s = (some (i, j), t)) : idAbsent i t ∧ wfQueue t := by
  obtain ⟨pq, nq, store⟩ := s
  obtain ⟨hl, hs⟩ := hwf
  cases pq with
  | cons i0 rest =>
    simp only [List.cons_append, List.nodup_cons] at hl
    simp only [dequeueWithId, takeJob] at h
    cases hget : getKey store i0 with
    | none => simp only [hget] at h; simp at h
    | some payload =>
      simp only [hget] at h
      cases hval : BatchJob.model_validate_json payload with
      | none => rw [hval] at h; simp at h
      | some j0 =>
        rw [hval] at h
        simp only [Option.map_some', Prod.mk.injEq, Option.some.injEq] at h
        obtain ⟨⟨hi, _⟩, ht⟩ := h
        rw [← ht, ← hi]
        refine ⟨⟨?_, ?_, not_mem_keys_delKey store i0 hs⟩,
          hl.2, hs.sublist ((delKey_sublist store i0).map Prod.fst)⟩
        · exact fun m => hl.1 (List.mem_append.mpr (Or.inl m))
        · exact fun m => hl.1 (List.mem_append.mpr (Or.inr m))
  | nil =>
    cases nq with
    | cons i0 rest =>
      simp only [List.nil_append, List.nodup_cons] at hl
      simp only [dequeueWithId, takeJob] at h
      cases hget : getKey store i0 with
      | none => simp only [hget] at h; simp at h
      | some payload =>
        simp only [hget] at h
        cases hval : BatchJob.model_validate_json payload with
        | none => rw [hval] at h; simp at h
        | some j0 =>
          rw [hval] at h
          simp only [Option.map_some', Prod.mk.injEq, Option.some.injEq] at h
          obtain ⟨⟨hi, _⟩, ht⟩ := h
          rw [← ht, ← hi]
          exact ⟨⟨by simp, hl.1, not_mem_keys_delKey store i0 hs⟩,
            by simpa using hl.2,
            hs.sublist ((delKey_sublist store i0).map Prod.fst)⟩
    | nil => simp [dequeueWithId] at h

theorem cancel_false_of_absent (i : String) (s : QueueState)
    (h1 : i ∉ s.priority_queue) (h2 : i ∉ s.normal_queue) :
    (cancel i s).1 = false := by
  simp [cancel, h1, h2]

theorem dequeue_ne_of_absent (i : String) (s : QueueState)
    (habs : idAbsent i s) :
    ∀ (j : BatchJob) (t : QueueState), dequeueWithId s ≠ (some (i, j), t) := by
  intro j t h
  rcases dequeueWithId_some_mem s i j t h with hm | hm
  · exact habs.1 hm
  · exact habs.2.1 hm

/-- C3.  At-most-once dequeue: once a dequeue has returned the payload of
job id `i` from a well-formed queue, then after any legal sequence of
further operations (none re-enqueueing that id — ids are fresh uuids), no
dequeue ever returns id `i`'s payload again, and `cancel i` returns
false. -/
theorem dequeue_at_most_once (s : QueueState) (i : String) (j : BatchJob)
    (s' : QueueState) (hwf : wfQueue s)
    (hdq : dequeueWithId s = (some (i, j), s'))
    (ops : List QOp) (hlegal : Legal s' ops)
    (hnoenq : ∀ j', QOp.enq i j' ∉ ops) :
    (∀ (j' : BatchJob) (t : QueueState),
        dequeueWithId (runOps s' ops) ≠ (some (i, j'), t)) ∧
      (cancel i (runOps s' ops)).1 = false := by
  obtain ⟨habs, hwf'⟩ := dequeue_after s i j s' hwf hdq
  obtain ⟨_, habs'⟩ := absent_wf_runOps i ops s' hwf' habs hlegal hnoenq
  exact ⟨dequeue_ne_of_absent i _ habs',
    cancel_false_of_absent i _ habs'.1 habs'.2.1⟩

/-- The operation sequence used in the C3 witness. -/
def c3ops : List QOp := [QOp.deq, QOp.can "c"]

/-- Witness for C3: dequeue job "a" from a one-job queue, then run a
further dequeue and a cancel of another id; id "a" can no longer be
dequeued and `cancel "a"` returns false. -/
theorem dequeue_at_most_once_witness :
    (∀ (j' : BatchJob) (t : QueueState),
        dequeueWithId (runOps ⟨[], [], []⟩ c3ops) ≠ (some ("a", j'), t)) ∧
      (cancel "a" (runOps ⟨[], [], []⟩ c3ops)).1 = false :=
  dequeue_at_most_once (enqueue "a" jobA qInit) "a" jobA ⟨[], [], []⟩
    (by constructor <;> decide) (by rfl) c3ops
    (Legal.deq _ _ (Legal.can _ _ _ (Legal.nil _)))
    (by intro j' hm; simp [c3ops] at hm)

/-- One identifier's in-memory windows from
`app/middleware/ratelimit.py` (`_memory_store[key]`): lists of
(timestamp, count) pairs for the minute and day windows.  Timestamps
(Python `time.time()` floats) are rationals. -/
structure RLState : Type where
  minute : List (ℚ × ℕ)
  day : List (ℚ × ℕ)

/-- Fresh identifier: both windows empty (the `defaultdict` default). -/
def rlInit : RLState := ⟨[], []⟩

/-- `RateLimiter._clean_old_entries`: drop entries with `now - ts >= 60`
from the minute window and `now - ts >= 86400` from the day window. -/
def cleanOldEntries (now : ℚ) (s : RLState) : RLState :=
  ⟨s.minute.filter (fun e => now - e.1 < 60),
   s.day.filter (fun e => now - e.1 < 86400)⟩

/-- The dictionary `check_rate_limit` returns. -/
structure RLResult : Type where
  allowed : Bool
  limit : ℕ
  remaining : ℤ
  reset_at : ℚ
  retry_after : ℤ

/-- `RateLimiter.check_rate_limit` for one identifier, with the tier's
`requests_per_minute` passed in (`TierLimits.get_limits` is a constant
table).  The day window is recorded but never gates admission, as in the
source.  `retry_after = int(reset_at - now)`: the argument is exactly 60,
where Python's truncation and `⌊·⌋` agree. -/
def check_rate_limit (minute_limit : ℕ) (now : ℚ) (s : RLState) :
    RLResult × RLState :=
  let s1 := cleanOldEntries now s
  let minute_requests : ℕ := (s1.minute.map Prod.snd).sum
  let reset_at := now + 60
  if minute_requests ≥ minute_limit then
    ({ allowed := false, limit := minute_limit, remaining := 0,
       reset_at := reset_at, retry_after := ⌊reset_at - now⌋ }, s1)
  else
    ({ allowed := true, limit := minute_limit,
       remaining := (minute_limit : ℤ) - minute_requests - 1,
       reset_at := reset_at, retry_after := 0 },
     ⟨s1.minute ++ [(now, 1)], s1.day ++ [(now, 1)]⟩)

/-- State of one identifier after the first `k` calls, the `i`-th call
made at time `t i`. -/
def runRL (minute_limit : ℕ) (t : ℕ → ℚ) : ℕ → RLState
  | 0 => rlInit
  | k + 1 => (check_rate_limit minute_limit (t k) (runRL minute_limit t k)).2

theorem sum_map_snd_ones (t : ℕ → ℚ) (k : ℕ) :
    (((List.range k).map (fun i => (t i, 1))).map Prod.snd).sum = k := by
  induction k with
  | zero => rfl
  | succ n ih => simp [List.range_succ, List.map_map] at ih ⊢; simp [ih]

theorem runRL_spec (N : ℕ) (t : ℕ → ℚ)
    (hwin : ∀ i j : ℕ, i < j → j ≤ N → t j - t i < 60) :
    ∀ k, k ≤ N →
      (runRL N t k).minute = (List.range k).map (fun i => (t i, 1)) ∧
      (runRL N t k).day = (List.range k).map (fun i => (t i, 1)) := by
  intro k
  induction k with
  | zero => exact fun _ => ⟨rfl, rfl⟩
  | succ n ih =>
    intro hn
    obtain ⟨hm, hd⟩ := ih (Nat.le_of_succ_le hn)
    have hkeepm : ((runRL N t n).minute.filter (fun e => t n - e.1 < 60)) =
        (List.range n).map (fun i => (t i, 1)) := by
      rw [hm]
      refine List.filter_eq_self.mpr ?_
      intro e he
      obtain ⟨i, hi, rfl⟩ := List.mem_map.mp he
      have := hwin i n (List.mem_range.mp hi) (Nat.le_of_succ_le hn)
      simpa using this
    have hkeepd : ((runRL N t n).day.filter (fun e => t n - e.1 < 86400)) =
        (List.range n).map (fun i => (t i, 1)) := by
      rw [hd]
      refine List.filter_eq_self.mpr ?_
      intro e he
      obtain ⟨i, hi, rfl⟩ := List.mem_map.mp he
      have := hwin i n (List.mem_range.mp hi) (Nat.le_of_succ_le hn)
      simp only [decide_eq_true_eq]
      linarith
    have hcount : ((((List.range n).map (fun i => (t i, 1))).map
        (Prod.snd (α := ℚ))).sum) = n := sum_map_snd_ones t n
    have hlt : ¬ ((((List.range n).map (fun i => (t i, 1))).map
        (Prod.snd (α := ℚ))).sum ≥ N) := by
      rw [hcount]
      omega
    constructor
    · show (check_rate_limit N (t n) (runRL N t n)).2.minute = _
      simp only [check_rate_limit, cleanOldEntries, hkeepm, hkeepd, hlt,
        if_false, List.range_succ, List.map_append]
      simp
    · show (check_rate_limit N (t n) (runRL N t n)).2.day = _
      simp only [check_rate_limit, cleanOldEntries, hkeepm, hkeepd, hlt,
        if_false, List.range_succ, List.map_append]
      simp

/-- C4.  Rate limiter boundary: for a fresh identifier with minute quota
`N`, calls made at times `t 0, t 1, …` all within a 60-second span, the
first `N` calls (0-indexed call `k`, i.e. the (k+1)-th call) return
`allowed = true` with `remaining = N - (k+1)`; the (N+1)-th call returns
`allowed = false`, `remaining = 0` and `retry_after > 0`. -/
theorem rate_limiter_boundary (N : ℕ) (t : ℕ → ℚ)
    (hwin : ∀ i j : ℕ, i < j → j ≤ N → t j - t i < 60) :
    (∀ k, k < N →
      ((check_rate_limit N (t k) (runRL N t k)).1).allowed = true ∧
      ((check_rate_limit N (t k) (runRL N t k)).1).remaining =
        (N : ℤ) - k - 1) ∧
    ((check_rate_limit N (t N) (runRL N t N)).1).allowed = false ∧
    ((check_rate_limit N (t N) (runRL N t N)).1).remaining = 0 ∧
    0 < ((check_rate_limit N (t N) (runRL N t N)).1).retry_after := by
  have hstep : ∀ k, k ≤ N →
      (check_rate_limit N (t k) (runRL N t k)).1 =
        (if k ≥ N then
          { allowed := false, limit := N, remaining := 0,
            reset_at := t k + 60, retry_after := ⌊(t k + 60) - t k⌋ }
         else
          { allowed := true, limit := N, remaining := (N : ℤ) - k - 1,
            reset_at := t k + 60, retry_after := 0 }) := by
    intro k hk
    obtain ⟨hm, _⟩ := runRL_spec N t hwin k hk
    have hkeepm : ((runRL N t k).minute.filter (fun e => t k - e.1 < 60)) =
        (List.range k).map (fun i => (t i, 1)) := by
      rw [hm]
      refine List.filter_eq_self.mpr ?_
      intro e he
      obtain ⟨i, hi, rfl⟩ := List.mem_map.mp he
      simpa using hwin i k (List.mem_range.mp hi) hk
    have hA : (List.map (Prod.snd ∘ fun i => (t i, (1 : ℕ))) (List.range k)).sum = k := by
      simpa [List.map_map] using sum_map_snd_ones t k
    have hB : (List.map (Nat.cast ∘ Prod.snd ∘ fun i => (t i, (1 : ℕ)))
        (List.range k)).sum = (k : ℤ) := by
      have hf : (Nat.cast ∘ Prod.snd ∘ fun i : ℕ => (t i, (1 : ℕ))) =
          (fun _ : ℕ => (1 : ℤ)) := funext fun i => rfl
      rw [hf]
      simp
    by_cases hge : k ≥ N
    · simp [check_rate_limit, cleanOldEntries, hkeepm, hA, hB, hge]
    · simp [check_rate_limit, cleanOldEntries, hkeepm, hA, hB, hge]
  refine ⟨?_, ?_, ?_, ?_⟩
  · intro k hk
    rw [hstep k (le_of_lt hk), if_neg (by omega)]
    exact ⟨rfl, rfl⟩
  · rw [hstep N le_rfl, if_pos le_rfl]
  · rw [hstep N le_rfl, if_pos le_rfl]
  · rw [hstep N le_rfl, if_pos le_rfl]
    have h60 : (t N + 60) - t N = (60 : ℚ) := by ring
    simp [h60]

/-- The linear call-time sequence used in the C4 witness. -/
def tLin : ℕ → ℚ := fun i => i

/-- Witness for C4 at quota N = 2: calls at times 0, 1 are allowed (call
at 1 has remaining 0), and the call at time 2 is denied with positive
retry_after. -/
theorem rate_limiter_boundary_witness :
    ((check_rate_limit 2 (tLin 0) (runRL 2 tLin 0)).1).allowed = true ∧
    ((check_rate_limit 2 (tLin 1) (runRL 2 tLin 1)).1).remaining = 0 ∧
    ((check_rate_limit 2 (tLin 2) (runRL 2 tLin 2)).1).allowed = false ∧
    0 < ((check_rate_limit 2 (tLin 2) (runRL 2 tLin 2)).1).retry_after := by
  have hwin : ∀ i j : ℕ, i < j → j ≤ 2 → tLin j - tLin i < 60 := by
    intro i j _ hj
    have h2 : (j : ℚ) ≤ 2 := by exact_mod_cast hj
    have h0 : (0 : ℚ) ≤ (i : ℚ) := by positivity
    simp only [tLin]
    linarith
  have h := rate_limiter_boundary 2 tLin hwin
  refine ⟨(h.1 0 (by norm_num)).1, ?_, h.2.1, h.2.2.2⟩
  have hr := (h.1 1 (by norm_num)).2
  rw [hr]
  norm_num

/-- What one webhook POST attempt in `WebhookNotifier._send_webhook` can
produce: an HTTP response with a status code, an `httpx.TimeoutException`,
an `httpx.RequestError` (connection error), or any other unexpected
exception. -/
inductive AttemptOutcome : Type where
  | status (code : ℕ) : AttemptOutcome
  | timeout : AttemptOutcome
  | connError : AttemptOutcome
  | otherError : AttemptOutcome

/-- The `for attempt in range(max_retries + 1)` loop of `_send_webhook`.
`oracle n` is the outcome of the n-th POST (0-indexed); `fuel` is the
number of loop iterations left.  Returns (result, total attempts made):
2xx returns true; other status < 500 returns false immediately; status
>= 500, timeout and connection error fall through to the next iteration;
an unexpected exception returns false immediately; falling off the loop
returns false. -/
def sendLoop (oracle : ℕ → AttemptOutcome) : ℕ → ℕ → Bool × ℕ
  | attempt, 0 => (false, attempt)
  | attempt, fuel + 1 =>
    match oracle attempt with
    | .status code =>
      if 200 ≤ code ∧ code < 300 then (true, attempt + 1)
      else if code < 500 then (false, attempt + 1)
      else sendLoop oracle (attempt + 1) fuel
    | .timeout => sendLoop oracle (attempt + 1) fuel
    | .connError => sendLoop oracle (attempt + 1) fuel
    | .otherError => (false, attempt + 1)

/-- `WebhookNotifier._send_webhook` with `max_retries = R`: run the loop
from attempt 0 with `R + 1` iterations available. -/
def send_webhook (oracle : ℕ → AttemptOutcome) (max_retries : ℕ) : Bool × ℕ :=
  sendLoop oracle 0 (max_retries + 1)

/-- Outcomes the source retries: status >= 500, timeout, connection
error. -/
def isRetryable : AttemptOutcome → Bool
  | .status code => decide (500 ≤ code)
  | .timeout => true
  | .connError => true
  | .otherError => false

theorem sendLoop_succ (oracle : ℕ → AttemptOutcome) (attempt f : ℕ) :
    sendLoop oracle attempt (f + 1) =
      (match oracle attempt with
       | .status code =>
         if 200 ≤ code ∧ code < 300 then (true, attempt + 1)
         else if code < 500 then (false, attempt + 1)
         else sendLoop oracle (attempt + 1) f
       | .timeout => sendLoop oracle (attempt + 1) f
       | .connError => sendLoop oracle (attempt + 1) f
       | .otherError => (false, attempt + 1)) := rfl

theorem sendLoop_attempts_le (oracle : ℕ → AttemptOutcome) :
    ∀ (fuel attempt : ℕ), (sendLoop oracle attempt fuel).2 ≤ attempt + fuel := by
  intro fuel
  induction fuel with
  | zero => intro attempt; simp [sendLoop]
  | succ f ih =>
    intro attempt
    rw [sendLoop_succ]
    cases oracle attempt with
    | status code =>
      by_cases h1 : 200 ≤ code ∧ code < 300
      · simp only [if_pos h1]
        show attempt + 1 ≤ attempt + (f + 1)
        omega
      · by_cases h2 : code < 500
        · simp only [if_neg h1, if_pos h2]
          show attempt + 1 ≤ attempt + (f + 1)
          omega
        · simp only [if_neg h1, if_neg h2]
          have := ih (attempt + 1)
          omega
    | timeout =>
      show (sendLoop oracle (attempt + 1) f).2 ≤ attempt + (f + 1)
      have := ih (attempt + 1)
      omega
    | connError =>
      show (sendLoop oracle (attempt + 1) f).2 ≤ attempt + (f + 1)
      have := ih (attempt + 1)
      omega
    | otherError =>
      show attempt + 1 ≤ attempt + (f + 1)
      omega

theorem sendLoop_retry_shift (oracle : ℕ → AttemptOutcome) :
    ∀ (j attempt fuel : ℕ),
      (∀ i, i < j → isRetryable (oracle (attempt + i))) → j ≤ fuel →
      sendLoop oracle attempt fuel = sendLoop oracle (attempt + j) (fuel - j) := by
  intro j
  induction j with
  | zero => intro attempt fuel _ _; simp
  | succ n ih =>
    intro attempt fuel hretry hle
    obtain ⟨f, rfl⟩ : ∃ f, fuel = f + 1 := ⟨fuel - 1, by omega⟩
    have h0 : isRetryable (oracle attempt) := by
      simpa using hretry 0 (Nat.succ_pos n)
    have hstep : sendLoop oracle attempt (f + 1) =
        sendLoop oracle (attempt + 1) f := by
      rw [sendLoop_succ]
      cases ho : oracle attempt with
      | status code =>
        rw [ho] at h0
        simp only [isRetryable, decide_eq_true_eq] at h0
        have h1 : ¬ (200 ≤ code ∧ code < 300) := by omega
        have h2 : ¬ code < 500 := by omega
        simp [h1, h2]
      | timeout => rfl
      | connError => rfl
      | otherError =>
        rw [ho] at h0
        simp [isRetryable] at h0
    have hretry' : ∀ i, i < n → isRetryable (oracle (attempt + 1 + i)) := by
      intro i hi
      have := hretry (i + 1) (by omega)
      have he : attempt + (i + 1) = attempt + 1 + i := by omega
      rwa [he] at this
    rw [hstep, ih (attempt + 1) f hretry' (by omega)]
    congr 1 <;> omega

/-- C5.  Webhook retry boundary: with `max_retries = R`, at most `R + 1`
POSTs are made; a 2xx on the first attempt returns true after 1 attempt;
a non-2xx status < 500 on the first attempt returns false after exactly
1 attempt without consuming the retry budget; after any run of retryable
outcomes (status >= 500, timeout, connection error) a 2xx at attempt `j`
returns true with `j + 1` attempts; and if every attempt is retryable the
loop exhausts all `R + 1` attempts and returns false. -/
theorem webhook_send_retry_boundary (oracle : ℕ → AttemptOutcome) (R : ℕ) :
    ((send_webhook oracle R).2 ≤ R + 1) ∧
    (∀ code, oracle 0 = .status code → 200 ≤ code ∧ code < 300 →
      send_webhook oracle R = (true, 1)) ∧
    (∀ code, oracle 0 = .status code → ¬ (200 ≤ code ∧ code < 300) →
      code < 500 → send_webhook oracle R = (false, 1)) ∧
    (∀ j, j ≤ R → (∀ i, i < j → isRetryable (oracle i)) →
      ∀ code, oracle j = .status code → 200 ≤ code ∧ code < 300 →
      send_webhook oracle R = (true, j + 1)) ∧
    ((∀ i, i ≤ R → isRetryable (oracle i)) →
      send_webhook oracle R = (false, R + 1)) := by
  refine ⟨?_, ?_, ?_, ?_, ?_⟩
  · simpa using sendLoop_attempts_le oracle (R + 1) 0
  · intro code ho h2xx
    unfold send_webhook
    rw [sendLoop_succ, ho]
    simp [h2xx]
  · intro code ho hn2 h5
    unfold send_webhook
    rw [sendLoop_succ, ho]
    simp [hn2, h5]
  · intro j hj hretry code ho h2xx
    unfold send_webhook
    have hshift := sendLoop_retry_shift oracle j 0 (R + 1)
      (fun i hi => by simpa using hretry i hi) (by omega)
    rw [hshift]
    obtain ⟨m, hm⟩ : ∃ m, R + 1 - j = m + 1 := ⟨R - j, by omega⟩
    rw [hm, sendLoop_succ]
    have h0j : (0 : ℕ) + j = j := by omega
    rw [h0j, ho]
    simp [h2xx]
  · intro hall
    unfold send_webhook
    have hshift := sendLoop_retry_shift oracle (R + 1) 0 (R + 1)
      (fun i hi => by simpa using hall i (by omega)) (by omega)
    rw [hshift]
    simp [sendLoop]

/-- Witness for C5: an endpoint that always answers 500 with
`max_retries = 2` makes exactly 3 attempts and returns false; an endpoint
answering 400 makes exactly 1 attempt and returns false even with a large
retry budget. -/
theorem webhook_send_retry_boundary_witness :
    send_webhook (fun _ => .status 500) 2 = (false, 3) ∧
    send_webhook (fun _ => .status 400) 5 = (false, 1) := by
  constructor
  · have h := (webhook_send_retry_boundary (fun _ => .status 500) 2).2.2.2.2
      (fun i _ => by simp [isRetryable])
    simpa using h
  · exact (webhook_send_retry_boundary (fun _ => .status 400) 5).2.2.1 400 rfl
      (by omega) (by omega)

/-- `JobStatus` from `app/core/jobs.py`. -/
inductive JobStatus : Type where
  | pending : JobStatus
  | running : JobStatus
  | completed : JobStatus
  | failed : JobStatus
  | cancelled : JobStatus
deriving DecidableEq

/-- Terminal statuses: Completed, Failed, Cancelled. -/
def JobStatus.isTerminal : JobStatus → Bool
  | .completed => true
  | .failed => true
  | .cancelled => true
  | _ => false

/-- The mutable fields of a `Job` record that the lifecycle claims are
about (`id`, `created_at`, `completed_at` omitted: `id` is immutable and
the claims do not constrain the timestamps). -/
structure MJob : Type where
  status : JobStatus
  result : Option Json
  error : Option String

/-- The completion block of `_run_job`: writes COMPLETED and the result
only if the current status is not CANCELLED. -/
def completionWrite (r : Json) (j : MJob) : MJob :=
  if j.status ≠ .cancelled then { j with status := .completed, result := some r }
  else j

/-- The `except asyncio.CancelledError` block of `_run_job`: writes
CANCELLED unconditionally. -/
def cancelledWrite (j : MJob) : MJob :=
  { j with status := .cancelled }

/-- The `except asyncio.TimeoutError` block of `_run_job`: writes FAILED
and the timeout message unconditionally. -/
def timeoutMsg (t : ℚ) : String :=
  "Job timed out after " ++ toString t ++ " seconds"

def timeoutWrite (t : ℚ) (j : MJob) : MJob :=
  { j with status := .failed, error := some (timeoutMsg t) }

/-- The `except Exception` block of `_run_job`: writes FAILED and the
exception message unconditionally. -/
def errorWrite (e : String) (j : MJob) : MJob :=
  { j with status := .failed, error := some e }

/-- The `cancel_job` body: only PENDING or RUNNING jobs are cancelled;
otherwise the record is untouched and False is returned. -/
def cancelJobWrite (j : MJob) : MJob × Bool :=
  if j.status = .pending ∨ j.status = .running then
    ({ j with status := .cancelled }, true)
  else (j, false)

/-- A job's shared record plus whether its `_run_job` task has finished.
Each `_run_job` run executes exactly one of the four ending blocks (the
try body and its sibling except clauses); after that the task is done
and no further handler runs for this job. -/
structure TaskState : Type where
  job : MJob
  ended : Bool

/-- One interleaving step on a single job after `create_job` has
returned.  `cancelOp` is a `cancel_job` call, possible at any time.  The
`end*` steps are the four ending blocks of `_run_job`, possible only
while the task has not ended.  `endCancelled` covers a delivered
`task.cancel()` (from `cancel_job` or `shutdown`).  `endTimeout` and
`endError` can fire with status already CANCELLED: the awaited task
function may swallow the injected `CancelledError` and raise something
else, and those source blocks write without checking the status. -/
inductive JStep : TaskState → TaskState → Prop where
  | cancelOp (j : MJob) (e : Bool) : JStep ⟨j, e⟩ ⟨(cancelJobWrite j).1, e⟩
  | endComplete (r : Json) (j : MJob) :
      JStep ⟨j, false⟩ ⟨completionWrite r j, true⟩
  | endCancelled (j : MJob) : JStep ⟨j, false⟩ ⟨cancelledWrite j, true⟩
  | endTimeout (t : ℚ) (j : MJob) : JStep ⟨j, false⟩ ⟨timeoutWrite t j, true⟩
  | endError (e : String) (j : MJob) : JStep ⟨j, false⟩ ⟨errorWrite e j, true⟩

/-- The record right after `create_job` returns: RUNNING, no result, no
error, task still to finish. -/
def initTask : TaskState := ⟨⟨.running, none, none⟩, false⟩

/-- Job states reachable from a fresh job by any interleaving of
`cancel_job` calls with the job's own ending handler. -/
def ReachableJ (s : TaskState) : Prop :=
  Relation.ReflTransGen JStep initTask s

/-- The record invariant `_run_job` maintains: the result is set exactly
on COMPLETED records, the error exactly on FAILED records, and a
COMPLETED/FAILED status means the task has ended. -/
def jobInvariant (s : TaskState) : Prop :=
  (s.job.result.isSome = true ↔ s.job.status = .completed) ∧
  (s.job.error.isSome = true ↔ s.job.status = .failed) ∧
  ((s.job.status = .completed ∨ s.job.status = .failed) → s.ended = true)

theorem reachable_invariant (s : TaskState) (h : ReachableJ s) :
    jobInvariant s := by
  induction h with
  | refl =>
    exact ⟨by simp [initTask], by simp [initTask], by simp [initTask]⟩
  | tail _ hstep ih =>
    obtain ⟨ih1, ih2, ih3⟩ := ih
    cases hstep with
    | cancelOp j e =>
      by_cases hc : j.status = .pending ∨ j.status = .running
      · have hnc : j.status ≠ .completed := by rcases hc with h | h <;> simp [h]
        have hnf : j.status ≠ .failed := by rcases hc with h | h <;> simp [h]
        have hres : j.result.isSome = false := by
          cases hr : j.result.isSome
          · rfl
          · exact absurd (ih1.mp hr) hnc
        have herr : j.error.isSome = false := by
          cases hr : j.error.isSome
          · rfl
          · exact absurd (ih2.mp hr) hnf
        unfold jobInvariant
        simp [cancelJobWrite, hc, hres, herr]
      · unfold jobInvariant
        simp only [cancelJobWrite, if_neg hc]
        exact ⟨ih1, ih2, ih3⟩
    | endComplete r j =>
      have hn : ¬ (j.status = .completed ∨ j.status = .failed) := by
        intro hin
        simpa using ih3 hin
      by_cases hcanc : j.status = .cancelled
      · unfold jobInvariant
        simp only [completionWrite, hcanc]
        simp
        exact ⟨ih1, ih2⟩
      · have hnf : j.status ≠ .failed := fun h => hn (Or.inr h)
        have herr : j.error.isSome = false := by
          cases hr : j.error.isSome
          · rfl
          · exact absurd (ih2.mp hr) hnf
        unfold jobInvariant
        simp [completionWrite, hcanc, herr]
    | endCancelled j =>
      have hn : ¬ (j.status = .completed ∨ j.status = .failed) := by
        intro hin
        simpa using ih3 hin
      have hres : j.result.isSome = false := by
        cases hr : j.result.isSome
        · rfl
        · exact absurd (ih1.mp hr) (fun h => hn (Or.inl h))
      have herr : j.error.isSome = false := by
        cases hr : j.error.isSome
        · rfl
        · exact absurd (ih2.mp hr) (fun h => hn (Or.inr h))
      unfold jobInvariant
      simp [cancelledWrite, hres, herr]
    | endTimeout t j =>
      have hn : ¬ (j.status = .completed ∨ j.status = .failed) := by
        intro hin
        simpa using ih3 hin
      have hres : j.result.isSome = false := by
        cases hr : j.result.isSome
        · rfl
        · exact absurd (ih1.mp hr) (fun h => hn (Or.inl h))
      unfold jobInvariant
      simp [timeoutWrite, hres]
    | endError e j =>
      have hn : ¬ (j.status = .completed ∨ j.status = .failed) := by
        intro hin
        simpa using ih3 hin
      have hres : j.result.isSome = false := by
        cases hr : j.result.isSome
        · rfl
        · exact absurd (ih1.mp hr) (fun h => hn (Or.inl h))
      unfold jobInvariant
      simp [errorWrite, hres]

theorem invariant_result_none {s : TaskState} (h : ReachableJ s)
    (hnc : s.job.status ≠ .completed) : s.job.result = none := by
  have i1 := (reachable_invariant s h).1
  cases hr : s.job.result with
  | none => rfl
  | some v => exact absurd (i1.mp (by simp [hr])) hnc

theorem invariant_error_none {s : TaskState} (h : ReachableJ s)
    (hnf : s.job.status ≠ .failed) : s.job.error = none := by
  have i2 := (reachable_invariant s h).2.1
  cases hr : s.job.error with
  | none => rfl
  | some v => exact absurd (i2.mp (by simp [hr])) hnf

/-- C2 (amended).  Terminal-state monotonicity as the code actually
guarantees it: a Completed or Failed record is never changed by any
later operation; a Cancelled record is never changed by `cancel_job` or
by the completion handler (which re-checks and drops the result), and in
particular never becomes Completed and never gains a result — but the
timeout and generic-error handlers, which write without checking, can
overwrite a Cancelled record to Failed with an error message. -/
theorem terminal_status_monotonic (s s' : TaskState) (hr : ReachableJ s)
    (hstep : JStep s s') :
    ((s.job.status = .completed ∨ s.job.status = .failed) → s'.job = s.job) ∧
    (s.job.status = .cancelled →
      s'.job = s.job ∨
        (s'.job.status = .failed ∧ s'.job.result = none ∧
          s'.job.error ≠ none)) ∧
    (s.job.status = .cancelled → s'.job.status ≠ .completed) := by
  obtain ⟨i1, i2, i3⟩ := reachable_invariant s hr
  cases hstep with
  | cancelOp j e =>
    have hfix : ∀ (hn : ¬ (j.status = .pending ∨ j.status = .running)),
        (cancelJobWrite j).1 = j := by
      intro hn
      simp [cancelJobWrite, hn]
    refine ⟨?_, ?_, ?_⟩
    · intro h
      replace h : j.status = .completed ∨ j.status = .failed := h
      exact hfix (by rcases h with h | h <;> simp [h])
    · intro h
      replace h : j.status = .cancelled := h
      exact Or.inl (hfix (by simp [h]))
    · intro h
      replace h : j.status = .cancelled := h
      rw [hfix (by simp [h])]
      simp [h]
  | endComplete r j =>
    refine ⟨?_, ?_, ?_⟩
    · intro h
      exact absurd (i3 h) (by simp)
    · intro h
      replace h : j.status = .cancelled := h
      exact Or.inl (by simp [completionWrite, h])
    · intro h
      replace h : j.status = .cancelled := h
      simp [completionWrite, h]
  | endCancelled j =>
    refine ⟨?_, ?_, ?_⟩
    · intro h
      exact absurd (i3 h) (by simp)
    · intro h
      left
      obtain ⟨st, r0, e0⟩ := j
      simp only at h
      subst h
      rfl
    · intro _
      simp [cancelledWrite]
  | endTimeout t j =>
    refine ⟨?_, ?_, ?_⟩
    · intro h
      exact absurd (i3 h) (by simp)
    · intro h
      replace h : j.status = .cancelled := h
      right
      refine ⟨rfl, ?_, by simp [timeoutWrite]⟩
      simpa [timeoutWrite] using invariant_result_none hr (by simp [h])
    · intro _
      simp [timeoutWrite]
  | endError e j =>
    refine ⟨?_, ?_, ?_⟩
    · intro h
      exact absurd (i3 h) (by simp)
    · intro h
      replace h : j.status = .cancelled := h
      right
      refine ⟨rfl, ?_, by simp [errorWrite]⟩
      simpa [errorWrite] using invariant_result_none hr (by simp [h])
    · intro _
      simp [errorWrite]

/-- Counterexample to C2 as stated: a job cancelled while its task
function swallows the injected cancellation and raises is reachable in
status Cancelled (terminal), and the generic-error handler — one of the
operations the claim quantifies over — then changes its status to Failed
and sets its error field. -/
theorem cancelled_overwritten_to_failed :
    ReachableJ ⟨⟨.cancelled, none, none⟩, false⟩ ∧
    JobStatus.isTerminal .cancelled = true ∧
    JStep ⟨⟨.cancelled, none, none⟩, false⟩
      ⟨⟨.failed, none, some "boom"⟩, true⟩ ∧
    JobStatus.failed ≠ JobStatus.cancelled := by
  refine ⟨?_, rfl, ?_, by simp⟩
  · exact Relation.ReflTransGen.single
      (JStep.cancelOp ⟨.running, none, none⟩ false)
  · exact JStep.endError "boom" ⟨.cancelled, none, none⟩

/-- Witness for C2 (amended): along the concrete trace
run → cancel → error handler, the amended statement's hypotheses hold
and the Cancelled record indeed moves to Failed with an error set,
never to Completed. -/
theorem terminal_status_monotonic_witness :
    (⟨⟨.failed, none, some "boom"⟩, true⟩ : TaskState).job =
        (⟨⟨.cancelled, none, none⟩, false⟩ : TaskState).job ∨
      ((⟨⟨.failed, none, some "boom"⟩, true⟩ : TaskState).job.status = .failed ∧
        (⟨⟨.failed, none, some "boom"⟩, true⟩ : TaskState).job.result = none ∧
        (⟨⟨.failed, none, some "boom"⟩, true⟩ : TaskState).job.error ≠ none) :=
  (terminal_status_monotonic ⟨⟨.cancelled, none, none⟩, false⟩
      ⟨⟨.failed, none, some "boom"⟩, true⟩
      (Relation.ReflTransGen.single (JStep.cancelOp ⟨.running, none, none⟩ false))
      (JStep.endError "boom" ⟨.cancelled, none, none⟩)).2.1 rfl

/-- C8 (amended).  The result field is set iff the status is Completed
and the error field iff the status is Failed; a Cancelled record has
neither, so a terminal record never has both set (exactly one is set iff
the terminal status is Completed or Failed). -/
theorem result_error_fields (s : TaskState) (h : ReachableJ s) :
    (s.job.result.isSome = true ↔ s.job.status = .completed) ∧
    (s.job.error.isSome = true ↔ s.job.status = .failed) ∧
    (s.job.status = .cancelled → s.job.result = none ∧ s.job.error = none) ∧
    (s.job.status.isTerminal = true →
      ¬ (s.job.result.isSome = true ∧ s.job.error.isSome = true)) := by
  obtain ⟨i1, i2, _⟩ := reachable_invariant s h
  refine ⟨i1, i2, ?_, ?_⟩
  · intro hc
    exact ⟨invariant_result_none h (by simp [hc]),
      invariant_error_none h (by simp [hc])⟩
  · rintro _ ⟨ha, hb⟩
    rw [i1] at ha
    rw [i2] at hb
    rw [ha] at hb
    cases hb

/-- Witness for C8 (amended): the completed state reached by a normal
completion satisfies the field characterization. -/
theorem result_error_fields_witness :
    ((⟨⟨.completed, some .null, none⟩, true⟩ : TaskState).job.result.isSome = true ↔
      (⟨⟨.completed, some .null, none⟩, true⟩ : TaskState).job.status = .completed) ∧
    ((⟨⟨.completed, some .null, none⟩, true⟩ : TaskState).job.error.isSome = true ↔
      (⟨⟨.completed, some .null, none⟩, true⟩ : TaskState).job.status = .failed) ∧
    ((⟨⟨.completed, some .null, none⟩, true⟩ : TaskState).job.status = .cancelled →
      (⟨⟨.completed, some .null, none⟩, true⟩ : TaskState).job.result = none ∧
      (⟨⟨.completed, some .null, none⟩, true⟩ : TaskState).job.error = none) ∧
    ((⟨⟨.completed, some .null, none⟩, true⟩ : TaskState).job.status.isTerminal = true →
      ¬ ((⟨⟨.completed, some .null, none⟩, true⟩ : TaskState).job.result.isSome = true ∧
        (⟨⟨.completed, some .null, none⟩, true⟩ : TaskState).job.error.isSome = true)) :=
  result_error_fields ⟨⟨.completed, some .null, none⟩, true⟩
    (Relation.ReflTransGen.single (JStep.endComplete .null ⟨.running, none, none⟩))

/-- Counterexample to C8 as stated: a job cancelled and ended is in a
terminal status with `result = none` and `error = none`, so it is false
that exactly one of the two fields is set once the record is terminal. -/
theorem cancelled_job_neither_field :
    ReachableJ ⟨⟨.cancelled, none, none⟩, true⟩ ∧
    JobStatus.isTerminal .cancelled = true ∧
    (⟨.cancelled, none, none⟩ : MJob).result = none ∧
    (⟨.cancelled, none, none⟩ : MJob).error = none := by
  refine ⟨?_, rfl, rfl, rfl⟩
  exact Relation.ReflTransGen.tail
    (Relation.ReflTransGen.single (JStep.cancelOp ⟨.running, none, none⟩ false))
    (JStep.endCancelled ⟨.cancelled, none, none⟩)

/-- Python truthiness of the `timeout` argument in `_run_job`'s
`if timeout:` — `None` and `0` are falsy, every other float is truthy. -/
def pyTruthy : Option ℚ → Bool
  | none => false
  | some q => decide (q ≠ 0)

/-- Behaviour of the awaited task function: return a result after `dur`
seconds, or raise an exception after `dur` seconds. -/
inductive TaskBeh : Type where
  | returns (r : Json) (dur : ℚ) : TaskBeh
  | raises (e : String) (dur : ℚ) : TaskBeh

/-- Whether the `asyncio.wait_for` timeout fires: only when `_run_job`
took the `wait_for` branch (`if timeout:` truthy) and the task outlives
the timeout. -/
def timeoutFires (timeout : Option ℚ) (dur : ℚ) : Bool :=
  pyTruthy timeout && decide (timeout.getD 0 < dur)

/-- The try/except dispatch of `_run_job` in isolation (no concurrent
cancellation): which ending block runs on the RUNNING record, given the
`timeout` argument of `create_job` and the task's behaviour. -/
def runJobOutcome (timeout : Option ℚ) (beh : TaskBeh) : MJob :=
  match beh with
  | .returns r dur =>
    if timeoutFires timeout dur then
      timeoutWrite (timeout.getD 0) ⟨.running, none, none⟩
    else completionWrite r ⟨.running, none, none⟩
  | .raises e dur =>
    if timeoutFires timeout dur then
      timeoutWrite (timeout.getD 0) ⟨.running, none, none⟩
    else errorWrite e ⟨.running, none, none⟩

/-- C10.  `create_job` with `timeout = 0` behaves exactly like passing no
timeout (`if timeout:` is falsy for 0): the task is never raced against
a timer, and in particular a task of any duration that returns a result
still reaches Completed with that result. -/
theorem timeout_zero_means_no_timeout :
    (∀ beh : TaskBeh, runJobOutcome (some 0) beh = runJobOutcome none beh) ∧
    (∀ (r : Json) (dur : ℚ), runJobOutcome (some 0) (.returns r dur) =
      ⟨.completed, some r, none⟩) := by
  constructor
  · intro beh
    cases beh <;> simp [runJobOutcome, timeoutFires, pyTruthy]
  · intro r dur
    simp [runJobOutcome, timeoutFires, pyTruthy, completionWrite]

/-- Python float `%` for a positive modulus (both arguments non-negative
here): `x % y = x - y * ⌊x / y⌋`. -/
def ratMod (x y : ℚ) : ℚ := x - y * ⌊x / y⌋

/-- Python `round(q, 2)` over exact rationals: round half to even at two
decimal places. -/
def roundHalfEven (q : ℚ) : ℤ :=
  if q - ⌊q⌋ < 1/2 then ⌊q⌋
  else if q - ⌊q⌋ > 1/2 then ⌊q⌋ + 1
  else if ⌊q⌋ % 2 = 0 then ⌊q⌋ else ⌊q⌋ + 1

def pyRound2 (q : ℚ) : ℚ := (roundHalfEven (q * 100) : ℚ) / 100

/-- The `data` object of `build_batch_progress_payload`. -/
structure ProgressData : Type where
  total_conversations : ℕ
  completed_count : ℕ
  failed_count : ℕ
  pending_count : ℤ
  progress_percent : ℚ
deriving DecidableEq

/-- `WebhookNotifier.build_batch_progress_payload` (data fields;
`event`/`timestamp` strings omitted, `progress_percent` rounded to two
decimals). -/
def build_batch_progress_payload (total completed failed : ℕ)
    (progress_percent : ℚ) : ProgressData :=
  ⟨total, completed, failed, (total : ℤ) - completed - failed,
    pyRound2 progress_percent⟩

/-- The `data` object of `build_batch_complete_payload`. -/
structure CompleteData : Type where
  total_conversations : ℕ
  completed_count : ℕ
  failed_count : ℕ
  success_rate : ℚ
deriving DecidableEq

/-- `WebhookNotifier.build_batch_complete_payload`: success_rate is
`round(completed/total*100, 2)` or 0.0 for an empty batch. -/
def build_batch_complete_payload (total completed failed : ℕ) : CompleteData :=
  ⟨total, completed, failed,
    if 0 < total then pyRound2 ((completed : ℚ) / total * 100) else 0⟩

/-- Webhook events the worker can send for a batch. -/
inductive WEvent : Type where
  | progress (batch_id : String) (d : ProgressData) : WEvent
  | complete (batch_id : String) (d : CompleteData) : WEvent
  | failed (batch_id : String) (err : String) : WEvent
deriving DecidableEq

def WEvent.isProgress : WEvent → Bool
  | .progress _ _ => true
  | _ => false

/-- Per-item behaviour of the validator/analyzer collaborators for one
conversation id: validation fails with an error; validation passes and
the analyzer returns (patterns, confidence); or the analyzer raises. -/
inductive ItemOutcome : Type where
  | invalid (err : String) : ItemOutcome
  | analyzeOk (patterns : Json) (confidence : ℚ) : ItemOutcome
  | analyzeErr (err : String) : ItemOutcome

/-- One `results[conv_id]` record. -/
inductive ItemResult : Type where
  | completedRes (patterns : Json) (confidence : ℚ) : ItemResult
  | failedRes (err : String) : ItemResult

/-- Loop state of `BatchWorker.process_job`: the two counters, the
`results` assignments in processing order, and the webhook events sent
so far. -/
structure WState : Type where
  completed : ℕ
  failed : ℕ
  results : List (String × ItemResult)
  events : List WEvent

/-- One iteration of the `for conv_id in job.conversation_ids` loop.  A
validation failure or analyzer exception records a per-item failure and
continues.  Only the success path recomputes
`progress = (completed + failed) / total * 100` and, when
`progress % 10 < 1 / total * 100` and a callback URL is configured,
sends a `batch.progress` webhook. -/
def stepItem (batch_id : String) (total : ℕ) (callback : Option String)
    (st : WState) (item : String × ItemOutcome) : WState :=
  match item.2 with
  | .invalid err =>
    ⟨st.completed, st.failed + 1,
      st.results ++ [(item.1, .failedRes err)], st.events⟩
  | .analyzeErr err =>
    ⟨st.completed, st.failed + 1,
      st.results ++ [(item.1, .failedRes err)], st.events⟩
  | .analyzeOk p c =>
    let progress : ℚ := ((st.completed + 1 + st.failed : ℕ) : ℚ) / total * 100
    ⟨st.completed + 1, st.failed,
      st.results ++ [(item.1, .completedRes p c)],
      if ratMod progress 10 < 1 / (total : ℚ) * 100 ∧ callback.isSome then
        st.events ++ [WEvent.progress batch_id
          (build_batch_progress_payload total (st.completed + 1) st.failed progress)]
      else st.events⟩

/-- `BatchWorker.process_job`: process every item in order, then send the
`batch.complete` webhook when a callback URL is configured.  The
surrounding `except` (batch.failed path) is not exercised: per-item
exceptions are handled inside the loop, so the pure model's orchestration
code cannot throw. -/
def processJob (batch_id : String) (items : List (String × ItemOutcome))
    (callback : Option String) : WState :=
  let total := items.length
  let final := items.foldl (stepItem batch_id total callback) ⟨0, 0, [], []⟩
  match callback with
  | some _ =>
    ⟨final.completed, final.failed, final.results,
      final.events ++ [WEvent.complete batch_id
        (build_batch_complete_payload total final.completed final.failed)]⟩
  | none => final

theorem foldl_results_keys (b : String) (tot : ℕ) (cb : Option String) :
    ∀ (items : List (String × ItemOutcome)) (st : WState),
    ((items.foldl (stepItem b tot cb) st).results).map Prod.fst =
      st.results.map Prod.fst ++ items.map Prod.fst := by
  intro items
  induction items with
  | nil => intro st; simp
  | cons it rest ih =>
    intro st
    rw [List.foldl_cons, ih]
    obtain ⟨cid, out⟩ := it
    cases out <;> simp [stepItem]

/-- The 3-item batch of the spec's worked example: item 2 fails
validation, items 1 and 3 analyze successfully. -/
def items3 : List (String × ItemOutcome) :=
  [("c1", .analyzeOk .null 1), ("c2", .invalid "bad"), ("c3", .analyzeOk .null 1)]

/-- C7.  Per-item failures never abort a batch: every item is processed
in order (one `results` record per item, in the input order), and for
the spec's 3-item example with item 2 failing validation the final
`batch.complete` webhook reports completed_count = 2, failed_count = 1
and success_rate = 66.67. -/
theorem batch_partial_failure :
    (∀ (b : String) (items : List (String × ItemOutcome)) (cb : Option String),
      ((processJob b items cb).results).map Prod.fst = items.map Prod.fst) ∧
    (processJob "b" items3 (some "u")).completed = 2 ∧
    (processJob "b" items3 (some "u")).failed = 1 ∧
    ((processJob "b" items3 (some "u")).results).map Prod.fst =
      ["c1", "c2", "c3"] ∧
    (processJob "b" items3 (some "u")).events.getLast? =
      some (WEvent.complete "b" (build_batch_complete_payload 3 2 1)) ∧
    (build_batch_complete_payload 3 2 1).success_rate = 6667 / 100 := by
  refine ⟨?_, ?_, ?_, ?_, ?_, ?_⟩
  · intro b items cb
    unfold processJob
    cases cb <;> simp [foldl_results_keys]
  · rfl
  · rfl
  · rfl
  · have hc : (items3.foldl (stepItem "b" 3 (some "u")) ⟨0, 0, [], []⟩).completed = 2 := rfl
    have hf : (items3.foldl (stepItem "b" 3 (some "u")) ⟨0, 0, [], []⟩).failed = 1 := rfl
    show ((items3.foldl (stepItem "b" 3 (some "u")) ⟨0, 0, [], []⟩).events ++
      [WEvent.complete "b" (build_batch_complete_payload 3
        (items3.foldl (stepItem "b" 3 (some "u")) ⟨0, 0, [], []⟩).completed
        (items3.foldl (stepItem "b" 3 (some "u")) ⟨0, 0, [], []⟩).failed)]).getLast? = _
    rw [List.getLast?_concat, hc, hf]
  · show (if 0 < 3 then pyRound2 ((2 : ℚ) / 3 * 100) else 0) = 6667 / 100
    rw [if_pos (by norm_num)]
    unfold pyRound2 roundHalfEven
    have h1 : ((2 : ℚ) / 3 * 100) * 100 = 20000 / 3 := by norm_num
    have h2 : ⌊(20000 : ℚ) / 3⌋ = 6666 := by norm_num
    rw [h1, h2]
    norm_num

/-- Counterexample to C6 as stated: a 1-item batch whose single item
fails validation, with a callback URL configured.  After that item
progress is (0+1)/1*100 = 100 and the decile condition
`progress % 10 < 1/total*100` holds, so the claim demands a
`batch.progress` webhook — but the worker's progress block sits on the
analyze-success path only (the failure paths `continue`/`except` skip
it), so the run emits no progress event at all. -/
theorem progress_check_skipped_on_failure :
    ratMod ((((0 + 1 : ℕ) : ℚ)) / ((1 : ℕ) : ℚ) * 100) 10 <
        1 / ((1 : ℕ) : ℚ) * 100 ∧
    (some "u" : Option String).isSome = true ∧
    (processJob "b" [("x", ItemOutcome.invalid "bad")] (some "u")).events.filter
        WEvent.isProgress = [] := by
  refine ⟨?_, rfl, rfl⟩
  unfold ratMod
  norm_num

/-- The progress-webhook trace the worker actually produces, computed
spec-side: walking the items with the two counters, emitting an event
only after a successful analysis whose progress meets the decile
condition (and only when a callback is configured). -/
def expectedEvents (b : String) (total : ℕ) (cb : Option String) :
    List (String × ItemOutcome) → ℕ → ℕ → List WEvent
  | [], _, _ => []
  | (_, .invalid _) :: rest, c, f => expectedEvents b total cb rest c (f + 1)
  | (_, .analyzeErr _) :: rest, c, f => expectedEvents b total cb rest c (f + 1)
  | (_, .analyzeOk _ _) :: rest, c, f =>
    (if ratMod (((c + 1 + f : ℕ) : ℚ) / total * 100) 10 <
          1 / (total : ℚ) * 100 ∧ cb.isSome then
      [WEvent.progress b (build_batch_progress_payload total (c + 1) f
        (((c + 1 + f : ℕ) : ℚ) / total * 100))]
     else []) ++ expectedEvents b total cb rest (c + 1) f

theorem foldl_events (b : String) (tot : ℕ) (cb : Option String) :
    ∀ (items : List (String × ItemOutcome)) (st : WState),
    ((items.foldl (stepItem b tot cb) st).events) =
      st.events ++ expectedEvents b tot cb items st.completed st.failed := by
  intro items
  induction items with
  | nil => intro st; simp [expectedEvents]
  | cons it rest ih =>
    intro st
    obtain ⟨cid, out⟩ := it
    rw [List.foldl_cons, ih]
    cases out with
    | invalid err => simp [stepItem, expectedEvents]
    | analyzeErr err => simp [stepItem, expectedEvents]
    | analyzeOk p c =>
      have hco : (stepItem b tot cb st (cid, .analyzeOk p c)).completed =
          st.completed + 1 := rfl
      have hfa : (stepItem b tot cb st (cid, .analyzeOk p c)).failed =
          st.failed := rfl
      have hst : (stepItem b tot cb st (cid, .analyzeOk p c)).events =
          if ratMod (((st.completed + 1 + st.failed : ℕ) : ℚ) / tot * 100) 10 <
              1 / (tot : ℚ) * 100 ∧ cb.isSome then
            st.events ++ [WEvent.progress b (build_batch_progress_payload tot
              (st.completed + 1) st.failed
              (((st.completed + 1 + st.failed : ℕ) : ℚ) / tot * 100))]
          else st.events := rfl
      have hexp : expectedEvents b tot cb ((cid, ItemOutcome.analyzeOk p c) :: rest)
          st.completed st.failed =
          (if ratMod (((st.completed + 1 + st.failed : ℕ) : ℚ) / tot * 100) 10 <
              1 / (tot : ℚ) * 100 ∧ cb.isSome then
            [WEvent.progress b (build_batch_progress_payload tot (st.completed + 1)
              st.failed (((st.completed + 1 + st.failed : ℕ) : ℚ) / tot * 100))]
           else []) ++ expectedEvents b tot cb rest (st.completed + 1) st.failed := rfl
      rw [hco, hfa, hst, hexp]
      by_cases hC : ratMod (((st.completed + 1 + st.failed : ℕ) : ℚ) / tot * 100) 10 <
          1 / (tot : ℚ) * 100 ∧ cb.isSome
      · rw [if_pos hC, if_pos hC]
        simp
      · rw [if_neg hC, if_neg hC]
        simp

/-- Whether an item analyzes successfully (validation passes and the
analyzer returns). -/
def isSuccessItem : String × ItemOutcome → Bool
  | (_, .analyzeOk _ _) => true
  | _ => false

theorem foldl_counts (b : String) (tot : ℕ) (cb : Option String) :
    ∀ (items : List (String × ItemOutcome)) (st : WState),
    ((items.foldl (stepItem b tot cb) st).completed =
      st.completed + (items.filter isSuccessItem).length) ∧
    ((items.foldl (stepItem b tot cb) st).failed =
      st.failed + (items.filter (fun it => ! isSuccessItem it)).length) := by
  intro items
  induction items with
  | nil => intro st; simp
  | cons it rest ih =>
    intro st
    obtain ⟨cid, out⟩ := it
    rw [List.foldl_cons]
    cases out with
    | invalid err =>
      obtain ⟨ih1, ih2⟩ := ih ⟨st.completed, st.failed + 1,
        st.results ++ [(cid, .failedRes err)], st.events⟩
      constructor
      · rw [show stepItem b tot cb st (cid, .invalid err) = ⟨st.completed,
          st.failed + 1, st.results ++ [(cid, .failedRes err)], st.events⟩ from rfl, ih1]
        simp [isSuccessItem, List.filter_cons]
      · rw [show stepItem b tot cb st (cid, .invalid err) = ⟨st.completed,
          st.failed + 1, st.results ++ [(cid, .failedRes err)], st.events⟩ from rfl, ih2]
        simp [isSuccessItem, List.filter_cons]
        omega
    | analyzeErr err =>
      obtain ⟨ih1, ih2⟩ := ih ⟨st.completed, st.failed + 1,
        st.results ++ [(cid, .failedRes err)], st.events⟩
      constructor
      · rw [show stepItem b tot cb st (cid, .analyzeErr err) = ⟨st.completed,
          st.failed + 1, st.results ++ [(cid, .failedRes err)], st.events⟩ from rfl, ih1]
        simp [isSuccessItem, List.filter_cons]
      · rw [show stepItem b tot cb st (cid, .analyzeErr err) = ⟨st.completed,
          st.failed + 1, st.results ++ [(cid, .failedRes err)], st.events⟩ from rfl, ih2]
        simp [isSuccessItem, List.filter_cons]
        omega
    | analyzeOk p c =>
      obtain ⟨ih1, ih2⟩ := ih (stepItem b tot cb st (cid, .analyzeOk p c))
      have hco : (stepItem b tot cb st (cid, .analyzeOk p c)).completed =
          st.completed + 1 := rfl
      have hfa : (stepItem b tot cb st (cid, .analyzeOk p c)).failed =
          st.failed := rfl
      rw [hco] at ih1
      rw [hfa] at ih2
      constructor
      · rw [ih1]
        simp [isSuccessItem, List.filter_cons]
        omega
      · rw [ih2]
        simp [isSuccessItem, List.filter_cons]

/-- C6 (amended).  The `batch.progress` webhook trace: the worker checks
the decile condition only after a successfully analyzed item — with the
recomputed `progress = (completed+failed)/total*100` and
`progress % 10 < 1/total*100` and a configured callback URL — and never
after a failed item; with a callback configured the trace ends with the
single `batch.complete` event. -/
theorem progress_events_characterization (b : String)
    (items : List (String × ItemOutcome)) (cb : Option String) :
    (processJob b items cb).events =
      expectedEvents b items.length cb items 0 0 ++
        (if cb.isSome then
          [WEvent.complete b (build_batch_complete_payload items.length
            (items.filter isSuccessItem).length
            (items.filter (fun it => ! isSuccessItem it)).length)]
         else []) := by
  obtain ⟨hc, hf⟩ := foldl_counts b items.length cb items ⟨0, 0, [], []⟩
  have he := foldl_events b items.length cb items ⟨0, 0, [], []⟩
  cases cb with
  | none =>
    have hpe : (processJob b items none).events =
        (items.foldl (stepItem b items.length none) ⟨0, 0, [], []⟩).events := rfl
    rw [hpe, he]
    simp
  | some u =>
    have hpe : (processJob b items (some u)).events =
        (items.foldl (stepItem b items.length (some u)) ⟨0, 0, [], []⟩).events ++
          [WEvent.complete b (build_batch_complete_payload items.length
            (items.foldl (stepItem b items.length (some u)) ⟨0, 0, [], []⟩).completed
            (items.foldl (stepItem b items.length (some u)) ⟨0, 0, [], []⟩).failed)] := rfl
    rw [hpe, he, hc, hf]
    simp
